import Mathlib

/-!
Verification development for the repository `agentic-ai-systems`
(file `python-app-development-agent/product-dev-agentic-ai.py`).

The Python source is shallowly embedded below.  Pure string processing is
translated to structural functions over `List Char`; filesystem state is an
explicit record threaded through the file-writing tool; the external process
spawner consulted by `run_shell_tool` is an oracle parameter; a raised Python
exception that escapes a function is modelled by `Except.error`, while any
normal return value (including returned rejection strings) is `Except.ok` or a
plain value.
-/

deriving instance DecidableEq for Except

/-- Python `str.strip` whitespace class (the ASCII whitespace characters). -/
def isWs (c : Char) : Bool :=
  c = ' ' || c = '\t' || c = '\n' || c = '\r' || c = '\x0b' || c = '\x0c'

/-- The character class `[a-zA-Z0-9_-]` of the fenced-block regular expression. -/
def isLangChar (c : Char) : Bool :=
  c.isAlphanum || c = '_' || c = '-'

/-- Boolean list-prefix test (used both for `str.startswith` and for the
`Path.parents` containment test, which on resolved absolute paths is exactly
componentwise prefix-or-equality). -/
def isPre {α : Type} [DecidableEq α] : List α → List α → Bool
  | [], _ => true
  | _ :: _, [] => false
  | a :: as, b :: bs => a = b && isPre as bs

/-- Python `s.startswith(p)`. -/
def pyStartsWith (s p : String) : Bool := isPre p.data s.data

/-- Python `str.lower` on the character list (ASCII case folding). -/
def toLowerC (l : List Char) : List Char := l.map Char.toLower

/-- Drop trailing whitespace characters (the right half of Python `str.strip`). -/
def dropTrailingWs : List Char → List Char
  | [] => []
  | c :: rest =>
    if dropTrailingWs rest = [] then (if isWs c then [] else [c])
    else c :: dropTrailingWs rest

/-- Python `str.strip()`: drop leading and trailing whitespace. -/
def trimC (l : List Char) : List Char := dropTrailingWs (l.dropWhile isWs)

/-- Python `str.strip()` on `String`. -/
def pyStrip (s : String) : String := String.mk (trimC s.data)

/-- Python `str.lower()` on `String`. -/
def pyLower (s : String) : String := String.mk (toLowerC s.data)

/-- Split a character list at separator characters selected by `p`, dropping
empty components (the behaviour of `pathlib` on `/` separators, and of
whitespace tokenisation). `acc` holds the current component reversed. -/
def splitByAux (p : Char → Bool) (acc : List Char) : List Char → List String
  | [] => if acc = [] then [] else [String.mk acc.reverse]
  | c :: rest =>
    if p c then
      if acc = [] then splitByAux p [] rest
      else String.mk acc.reverse :: splitByAux p [] rest
    else splitByAux p (c :: acc) rest

/-- Path-string components: split on `/`, empty components dropped. -/
def splitSlash (l : List Char) : List String := splitByAux (fun c => c = '/') [] l

/-- `shlex.split`, modelled for command lines that contain no quoting or
escape characters (every command appearing in the claims is of this form):
whitespace tokenisation. -/
def shlexSplit (s : String) : List String := splitByAux isWs [] s.data

/-- A string denotes an absolute POSIX path iff it begins with `/`. -/
def pyIsAbs (s : String) : Bool := s.data.head? = some '/'

/-- `Path.resolve()` component normalisation: process components left to
right; `.` is dropped, `..` removes the last accumulated component (a no-op
at the root), anything else is appended. -/
def resolveComponents (acc : List String) : List String → List String
  | [] => acc
  | c :: rest =>
    if c = "." then resolveComponents acc rest
    else if c = ".." then resolveComponents acc.dropLast rest
    else resolveComponents (acc ++ [c]) rest

/--
`safe_path` from the source:

```python
def safe_path(rel_path: str) -> pathlib.Path:
    p = (WORK_DIR / rel_path).resolve()
    if WORK_DIR.resolve() not in p.parents and p != WORK_DIR.resolve():
        raise ValueError("Unsafe path.")
    return p
```

`WORK_DIR` is the relative path `workspace`, so `WORK_DIR.resolve()` is
`cwd/workspace` where `cwd` is the (absolute, already resolved) process
working directory, given here as a list of components.  `pathlib`'s `/`
operator discards the left operand when the right operand is absolute.
On resolved absolute paths, `root in p.parents or p = root` is exactly
componentwise prefix.  A raised `ValueError` is `Except.error`.
-/
def safe_path (cwd : List String) (rel : String) : Except String (List String) :=
  let root := resolveComponents [] (cwd ++ ["workspace"])
  let p :=
    if pyIsAbs rel then resolveComponents [] (splitSlash rel.data)
    else resolveComponents [] (cwd ++ "workspace" :: splitSlash rel.data)
  if isPre root p then .ok p else .error "Unsafe path."

/-- Rendering of an absolute path (`str(path)` on the resolved `Path`). -/
def pathToString : List String → String
  | [] => "/"
  | [c] => "/" ++ c
  | c :: rest => "/" ++ c ++ pathToString rest

/-- Filesystem state: the set of directories known to exist and a map
(association list, most recent write first) from resolved absolute paths to
file contents. -/
structure FS where
  dirs : List (List String)
  files : List (List String × String)
deriving DecidableEq

/-- Content lookup in the modelled filesystem. -/
def lookupFS (fs : FS) (p : List String) : Option String :=
  (fs.files.find? (fun e => e.1 = p)).map (fun e => e.2)

/-- All prefixes of a component list (the directory together with every
ancestor), as created by `mkdir(parents=True, exist_ok=True)`. -/
def prefixesOf : List String → List (List String)
  | [] => [[]]
  | c :: rest => [] :: (prefixesOf rest).map (fun l => c :: l)

/-- `path.parent.mkdir(parents=True, exist_ok=True)` for a file at `p`. -/
def mkdirParents (fs : FS) (pparent : List String) : FS :=
  { fs with dirs := prefixesOf pparent ++ fs.dirs }

/-- Python falsiness of an optional string argument (`not filename`). -/
def pyFalsy : Option String → Bool
  | none => true
  | some s => s = ""

/--
`write_file_tool` from the source:

```python
def write_file_tool(filename: str = None, content: str = None) -> str:
    if not filename or not content:
        return "Error: Missing filename or content."
    path = safe_path(filename)
    path.parent.mkdir(parents=True, exist_ok=True)
    path.write_text(content, encoding="utf-8")
    return f"Wrote file: {path}"
```

The returned rejection string is a normal return (`Except.ok`); a
`ValueError` raised by `safe_path` propagates uncaught (`Except.error`).
The filesystem state is threaded explicitly and returned in every case.
-/
def write_file_tool (cwd : List String) (fs : FS)
    (filename content : Option String) : Except String String × FS :=
  if pyFalsy filename || pyFalsy content then
    (.ok "Error: Missing filename or content.", fs)
  else
    match safe_path cwd (filename.getD "") with
    | .error e => (.error e, fs)
    | .ok p =>
      (.ok ("Wrote file: " ++ pathToString p),
       { mkdirParents fs p.dropLast with
         files := (p, content.getD "") :: (mkdirParents fs p.dropLast).files })

/-- The command allowlist of `run_shell_tool`
(`allowed_prefixes = ("echo ", "python ", "pytest", "ls", "cat ")`). -/
def allowed_prefixes : List String := ["echo ", "python ", "pytest", "ls", "cat "]

/-- The inline policy test of `run_shell_tool`
(`any(command.startswith(p) for p in allowed_prefixes)`); the spec names it
`checkCommand`. -/
def checkCommand (command : String) : Bool :=
  allowed_prefixes.any (fun p => pyStartsWith command p)

/-- Outcome of one external process execution: either the process ran to
completion under the timeout (exit code, stdout, stderr), or `subprocess.run`
raised (spawn failure, `TimeoutExpired`, ...) with a message. -/
inductive ExecOutcome where
  | completed (returncode : Int) (stdout stderr : String)
  | failed (msg : String)
deriving DecidableEq

/--
`run_shell_tool` from the source:

```python
def run_shell_tool(command: str) -> str:
    allowed_prefixes = ("echo ", "python ", "pytest", "ls", "cat ")
    if not any(command.startswith(p) for p in allowed_prefixes):
        return "Rejected: command not allowed by policy."
    try:
        res = subprocess.run(shlex.split(command), cwd=str(WORK_DIR),
                             capture_output=True, text=True, timeout=30)
        out = res.stdout.strip(); err = res.stderr.strip(); code = res.returncode
        return f"exit={code}\nstdout:\n{out}\n\nstderr:\n{err}"
    except Exception as e:
        return f"Error running command: {e}"
```

The process spawner is the oracle `exec`, invoked with the working directory
(`str(WORK_DIR) = "workspace"`), the tokenised command, and the timeout 30.
Both failure branches produce return values, so the function is total. -/
def run_shell_tool (exec : String → List String → Nat → ExecOutcome)
    (command : String) : String :=
  if checkCommand command then
    match exec "workspace" (shlexSplit command) 30 with
    | .completed code out err =>
      "exit=" ++ toString code ++ "\nstdout:\n" ++ pyStrip out ++
        "\n\nstderr:\n" ++ pyStrip err
    | .failed e => "Error running command: " ++ e
  else "Rejected: command not allowed by policy."

/-- A spawner whose every execution completes with exit code 0 and empty
output (used to instantiate oracle-parametric statements). -/
def execOk : String → List String → Nat → ExecOutcome :=
  fun _ _ _ => .completed 0 "" ""

/-- Does the character list begin with three backticks (the fence marker of
the regular expression)? -/
def startsFence (l : List Char) : Bool := l.take 3 = ['`', '`', '`']

/-- Does the character list contain three consecutive backticks anywhere? -/
def hasFence : List Char → Bool
  | [] => false
  | c :: rest => startsFence (c :: rest) || hasFence rest

/-- The lazy group `(.*?)` followed by the closing ```` ``` ````: capture the
shortest run of characters after which three backticks follow; `none` when no
closing fence exists (the overall match attempt then fails). -/
def captureUntilFence : List Char → Option (List Char)
  | [] => none
  | c :: rest =>
    if startsFence (c :: rest) then some []
    else (captureUntilFence rest).map (fun b => c :: b)

/-- One anchored match attempt of ```` ```[a-zA-Z0-9_-]*\n(.*?)``` ```` (with
`re.S`) at the head of the list: three backticks, a maximal run of language
characters (the class excludes `\n`, so no shorter run can be followed by
`\n` and backtracking is vacuous), a newline, then the lazy capture. -/
def fenceMatchAt (cs : List Char) : Option (List Char) :=
  if startsFence cs then
    if ((cs.drop 3).dropWhile isLangChar).head? = some '\n' then
      captureUntilFence ((cs.drop 3).dropWhile isLangChar).tail
    else none
  else none

/-- `re.search`: the match attempt at the leftmost position that succeeds. -/
def reSearchFence : List Char → Option (List Char)
  | [] => none
  | c :: rest =>
    if fenceMatchAt (c :: rest) = none then reSearchFence rest
    else fenceMatchAt (c :: rest)

/-- Python `str.splitlines()` for text whose only line terminator is `\n`
(the only terminator the program ever produces or inspects): split at `\n`,
with no empty final line for a trailing newline and `[]` for `""`. -/
def splitlinesC : List Char → List (List Char)
  | [] => []
  | c :: rest =>
    if c = '\n' then [] :: splitlinesC rest
    else
      match splitlinesC rest with
      | [] => [[c]]
      | line :: ls => (c :: line) :: ls

/-- Python `"\n".join(lines)`. -/
def joinNlC : List (List Char) → List Char
  | [] => []
  | a :: ls => if ls = [] then a else a ++ '\n' :: joinNlC ls

/-- Python `first_line.split(":", 1)[1]`: everything after the first colon
(total function; the caller is guarded by a test that guarantees a colon). -/
def afterColon : List Char → List Char
  | [] => []
  | c :: r => if c = ':' then r else afterColon r

/-- The extractor's result `{"filename": ..., "code": ...}`.  The source's
no-match dictionary `{"code": ""}` carries no filename key; every downstream
read uses `parsed.get("filename")`, for which an absent key and a `None`
value are indistinguishable, so both are `none` here. -/
structure Artifact where
  filename : Option String
  code : String
deriving DecidableEq

/-- Post-processing of a successful fence match (`extract_code_block` after
`re.search` succeeded with capture group `capture`). -/
def mkArtifact (capture : List Char) : Artifact :=
  let first_line := trimC ((splitlinesC capture).headD [])
  if isPre "# file:".data (toLowerC first_line) then
    { filename := some (String.mk (trimC (afterColon first_line))),
      code := String.mk (joinNlC (splitlinesC capture).tail) }
  else
    { filename := none, code := String.mk capture }

/--
`extract_code_block` from the source:

```python
def extract_code_block(text: str) -> Dict[str, str]:
    match = re.search(r"```[a-zA-Z0-9_-]*\n(.*?)```", text, flags=re.S)
    if not match:
        return {"code": ""}
    code = match.group(1)
    first_line = code.splitlines()[0].strip() if code else ""
    filename = None
    if first_line.lower().startswith("# file:"):
        filename = first_line.split(":", 1)[1].strip()
        code = "\n".join(code.splitlines()[1:])
    return {"filename": filename, "code": code}
```

(The `if code else ""` guard only avoids the index error on `""`, whose
`splitlines()` is `[]`; `headD []` with `trimC [] = []` yields the same
`first_line = ""`.)
-/
def extract_code_block (text : String) : Artifact :=
  match reSearchFence text.data with
  | none => { filename := none, code := "" }
  | some capture => mkArtifact capture

/-- The reconstruction described by the idempotence claim: the
`# file: <name>` line re-inserted when a filename was extracted, followed by
the body, wrapped in triple-backtick fences. -/
def reconstruct (a : Artifact) : String :=
  match a.filename with
  | some f => "```\n" ++ "# file: " ++ f ++ "\n" ++ a.code ++ "```"
  | none => "```\n" ++ a.code ++ "```"

/-- One transcript entry as the group chat records it: the fields `main`
reads (`m.get("name")`, `m.get("content", "")`).  An absent or `None` name is
`none`. -/
structure Msg where
  name : Option String
  content : String
deriving DecidableEq

/-- `[m for m in group.messages if (m.get("name") or "").lower() == "developer"]`. -/
def dev_msgs (msgs : List Msg) : List Msg :=
  msgs.filter (fun m => pyLower (m.name.getD "") = "developer")

/-- `dev_msgs[-1]["content"] if dev_msgs else ""`. -/
def code_text (msgs : List Msg) : String :=
  match (dev_msgs msgs).getLast? with
  | some m => m.content
  | none => ""

/-- Python `parsed.get("filename") or default` (both a missing/`None`
filename and the empty string fall through to the default). -/
def pyOrDefault (o : Option String) (default : String) : String :=
  match o with
  | some s => if s = "" then default else s
  | none => default

/--
`save_generated_code` from the source:

```python
def save_generated_code(parsed: Dict[str, str], agent_name="Developer") -> str:
    if not parsed.get("code"):
        return "No code found to save."
    ts = time.strftime("%Y%m%d-%H%M%S")
    filename = parsed.get("filename") or "snippet.py"
    dest = GENERATED_DIR / f"{ts}-{filename}"
    dest.write_text(parsed["code"], encoding="utf-8")
    return f"✅ Code saved for end users at {dest}"
```

The wall-clock timestamp is a parameter; the `generated_code/` directory is
an association list of relative destination names to contents. -/
def save_generated_code (ts : String) (parsed : Artifact)
    (gen : List (String × String)) : String × List (String × String) :=
  if parsed.code = "" then ("No code found to save.", gen)
  else
    let filename := pyOrDefault parsed.filename "snippet.py"
    let dest := ts ++ "-" ++ filename
    ("✅ Code saved for end users at generated_code/" ++ dest,
     (dest, parsed.code) :: gen)

/-- Everything `main` does after the group conversation, observably: the
parsed artifact, the message printed by the archival save, the
`generated_code/` directory state, whether the preview/approval prompt was
shown, the workspace write attempt (`none` when the step was skipped, and
otherwise the outcome of `write_file_tool`), and the workspace filesystem. -/
structure PostResult where
  parsed : Artifact
  saveMsg : String
  gen : List (String × String)
  prompted : Bool
  wsWrite : Option (Except String String)
  fs : FS
deriving DecidableEq

/--
The tail of `main` from the source (after `initiate_chat` returns):

```python
    dev_msgs = [m for m in group.messages if (m.get("name") or "").lower() == "developer"]
    code_text = dev_msgs[-1]["content"] if dev_msgs else ""
    parsed = extract_code_block(code_text)
    msg = save_generated_code(parsed)
    print(msg)
    if parsed.get("code"):
        filename = parsed.get("filename") or "app.py"
        print(f"Developer proposed file: {filename}")   # preview + prompt
        if input("Approve writing this file to workspace/? (y/n): ")... == "y":
            result = write_file_tool(filename, parsed["code"])
            print(result)
        else:
            print("Skipped writing file to workspace.")
```

The transcript, timestamp, human approval answer and ambient filesystem are
parameters. -/
def main_post (msgs : List Msg) (ts : String) (gen : List (String × String))
    (cwd : List String) (fs : FS) (approve : Bool) : PostResult :=
  let parsed := extract_code_block (code_text msgs)
  let saved := save_generated_code ts parsed gen
  if parsed.code = "" then
    ⟨parsed, saved.1, saved.2, false, none, fs⟩
  else
    let filename := pyOrDefault parsed.filename "app.py"
    if approve then
      let w := write_file_tool cwd fs (some filename) (some parsed.code)
      ⟨parsed, saved.1, saved.2, true, some w.1, w.2⟩
    else
      ⟨parsed, saved.1, saved.2, true, none, fs⟩

/-- The last character is not `x` (vacuously true of the empty list). -/
def lastCharNot (x : Char) : List Char → Bool
  | [] => true
  | c :: rest => if rest = [] then c != x else lastCharNot x rest

/-- Drop one trailing newline if present (the observable effect of
`"\n".join(s.splitlines())`). -/
def stripNl1 : List Char → List Char
  | [] => []
  | c :: r => if r = [] then (if c = '\n' then [] else [c]) else c :: stripNl1 r

/-- No character of the list is a newline. -/
def noNl (l : List Char) : Bool := l.all (fun c => c != '\n')


/-! ## General lemmas about the embedded primitives -/

theorem isPre_append_self {α : Type} [DecidableEq α] (l t : List α) :
    isPre l (l ++ t) = true := by
  induction l with
  | nil => rfl
  | cons a as ih => simp [isPre, ih]

theorem isPre_iff_exists {α : Type} [DecidableEq α] (l m : List α) :
    isPre l m = true ↔ ∃ t, m = l ++ t := by
  constructor
  · intro h
    induction l generalizing m with
    | nil => exact ⟨m, rfl⟩
    | cons a as ih =>
      cases m with
      | nil => simp [isPre] at h
      | cons b bs =>
        simp only [isPre, Bool.and_eq_true, decide_eq_true_eq] at h
        obtain ⟨t, ht⟩ := ih bs h.2
        exact ⟨t, by rw [h.1, ht]; rfl⟩
  · rintro ⟨t, rfl⟩
    exact isPre_append_self l t

/-! ## C1 — chained commands and the prefix allowlist -/

/-- C1, counterexample: the claim says `"echo hi && rm -rf /"` is rejected by
the policy check of `run_shell_tool`; in the source its literal text starts
with the allowed prefix `"echo "`, so the check accepts it and execution
proceeds (no policy-rejection string is returned). -/
theorem C1_chained_command_passes_policy :
    checkCommand "echo hi && rm -rf /" = true ∧
    run_shell_tool execOk "echo hi && rm -rf /" ≠
      "Rejected: command not allowed by policy." := by
  constructor
  · decide
  · decide

/-- C1, amended: `"rm -rf /"` is rejected with the policy message and
`"echo hi"` is allowed, but `"echo hi && rm -rf /"` is also accepted by the
policy check — literal-prefix matching alone decides, so a command chaining a
second command after an allowed prefix passes the check and is executed. -/
theorem C1_policy_outcomes_amended :
    checkCommand "rm -rf /" = false ∧
    run_shell_tool execOk "rm -rf /" = "Rejected: command not allowed by policy." ∧
    checkCommand "echo hi" = true ∧
    run_shell_tool execOk "echo hi" = "exit=0\nstdout:\n\n\nstderr:\n" ∧
    checkCommand "echo hi && rm -rf /" = true ∧
    run_shell_tool execOk "echo hi && rm -rf /" = "exit=0\nstdout:\n\n\nstderr:\n" := by
  refine ⟨by decide, by decide, by decide, by decide, by decide, by decide⟩

/-! ## C2 — extraction of a fenced block with a filename line -/

/-- C2, counterexample: on the claimed input the extractor does not return
body `"print(1)\n"` — rebuilding the body with `"\n".join(...splitlines())`
drops the trailing newline. -/
theorem C2_trailing_newline_dropped :
    extract_code_block "```\n# file: app.py\nprint(1)\n```" ≠
      { filename := some "app.py", code := "print(1)\n" } := by
  decide

/-- C2, amended: for the input `"```\n# file: app.py\nprint(1)\n```"` the
extractor returns filename `"app.py"` and body `"print(1)"` — the filename
line is stripped and the trailing newline of the block body is dropped by the
splitlines/join round trip. -/
theorem C2_extract_file_line_amended :
    extract_code_block "```\n# file: app.py\nprint(1)\n```" =
      { filename := some "app.py", code := "print(1)" } := by
  decide

/-! ## C10 — allowlist entries without trailing spaces match by prefix only -/

/-- C10: the allowlist entries `"ls"` and `"pytest"` carry no trailing space,
so *every* continuation of those letter sequences passes the policy check —
in particular `"lsblk /dev"` and `"pytest-bench x"` — and execution proceeds;
acceptance is decided by the literal string prefix alone, not by the leading
token as a whole word. -/
theorem C10_prefix_only_allowlist :
    (∀ rest : String, checkCommand ("ls" ++ rest) = true) ∧
    (∀ rest : String, checkCommand ("pytest" ++ rest) = true) ∧
    checkCommand "lsblk /dev" = true ∧
    checkCommand "pytest-bench x" = true ∧
    run_shell_tool execOk "lsblk /dev" = "exit=0\nstdout:\n\n\nstderr:\n" ∧
    run_shell_tool execOk "pytest-bench x" = "exit=0\nstdout:\n\n\nstderr:\n" := by
  refine ⟨fun rest => ?_, fun rest => ?_, by decide, by decide, by decide, by decide⟩
  · refine List.any_eq_true.mpr ⟨"ls", by decide, ?_⟩
    show isPre "ls".data ("ls" ++ rest).data = true
    rw [String.data_append]
    exact isPre_append_self _ _
  · refine List.any_eq_true.mpr ⟨"pytest", by decide, ?_⟩
    show isPre "pytest".data ("pytest" ++ rest).data = true
    rw [String.data_append]
    exact isPre_append_self _ _

/-! ## C5 — total error contract of `run_shell_tool` -/

/-- A spawner whose every execution raises (spawn error or timeout) with
message `"boom"`. -/
def execBoom : String → List String → Nat → ExecOutcome :=
  fun _ _ _ => .failed "boom"

/-- C5: `run_shell_tool` returns a `String` in every case (its type is total,
so no execution failure propagates): a command failing the allowlist check
yields the policy-rejection string; when the check passes, the single
execution happens in working directory `"workspace"` (SandboxRoot) with
timeout 30, and a raised spawn/timeout failure comes back as the formatted
error string, while a completed run comes back as the string carrying exit
code, stdout and stderr. -/
theorem C5_run_shell_total_contract
    (exec : String → List String → Nat → ExecOutcome) (command : String) :
    (checkCommand command = false →
      run_shell_tool exec command = "Rejected: command not allowed by policy.") ∧
    (∀ m, checkCommand command = true →
      exec "workspace" (shlexSplit command) 30 = .failed m →
      run_shell_tool exec command = "Error running command: " ++ m) ∧
    (∀ code out err, checkCommand command = true →
      exec "workspace" (shlexSplit command) 30 = .completed code out err →
      run_shell_tool exec command =
        "exit=" ++ toString code ++ "\nstdout:\n" ++ pyStrip out ++
          "\n\nstderr:\n" ++ pyStrip err) := by
  refine ⟨fun h => ?_, fun m hc he => ?_, fun code out err hc he => ?_⟩
  · simp [run_shell_tool, h]
  · simp [run_shell_tool, hc, he]
  · simp [run_shell_tool, hc, he]

/-- C5, witness: the three branches of the contract at concrete inputs. -/
theorem C5_run_shell_total_contract_witness :
    run_shell_tool execOk "rm -rf /" = "Rejected: command not allowed by policy." ∧
    run_shell_tool execBoom "python app.py" = "Error running command: boom" ∧
    run_shell_tool execOk "echo hi" = "exit=0\nstdout:\n\n\nstderr:\n" :=
  ⟨(C5_run_shell_total_contract execOk "rm -rf /").1 (by decide),
   (C5_run_shell_total_contract execBoom "python app.py").2.1 "boom" (by decide) rfl,
   (C5_run_shell_total_contract execOk "echo hi").2.2 0 "" "" (by decide) rfl⟩

/-! ## C3 — writes outside the sandbox -/

/-- C3, counterexample: for a path-escaping filename, `write_file_tool` does
not hand the caller a rejection return value — `safe_path`'s `ValueError`
propagates out of it uncaught (modelled by `Except.error`), so the caller
receives an unhandled fault. -/
theorem C3_escape_raises_no_rejection :
    write_file_tool [] ⟨[], []⟩ (some "../../etc/passwd") (some "data") =
      (Except.error "Unsafe path.", (⟨[], []⟩ : FS)) := by
  decide

/-- C3, amended: for every filename whose resolved path falls outside
SandboxRoot (given non-empty arguments, which pass the falsiness test first),
the write is refused before any I/O — no file is created or modified and no
directory is made — but the refusal reaches the caller as the propagating
`ValueError "Unsafe path."`, not as a rejection return value. -/
theorem C3_escape_refused_amended (cwd : List String) (fs : FS)
    (rel content e : String) (hr : rel ≠ "") (hc : content ≠ "")
    (he : safe_path cwd rel = .error e) :
    write_file_tool cwd fs (some rel) (some content) = (.error e, fs) := by
  simp [write_file_tool, pyFalsy, hr, hc, he]

/-- C3, witness for the amended theorem at a concrete escaping path. -/
theorem C3_escape_refused_amended_witness :
    write_file_tool ["home"] ⟨[], [(["home", "f"], "old")]⟩
        (some "../../etc/passwd") (some "data") =
      (Except.error "Unsafe path.", ⟨[], [(["home", "f"], "old")]⟩) :=
  C3_escape_refused_amended ["home"] ⟨[], [(["home", "f"], "old")]⟩
    "../../etc/passwd" "data" "Unsafe path." (by decide) (by decide) (by decide)

/-! ## C6 — the write-file contract -/

/-- C6: a call with an absent or empty filename or content returns the
missing-argument rejection and leaves the filesystem untouched; otherwise,
when the sandbox guard resolves the path, the tool creates the intermediate
directories (every ancestor of the file's parent), writes the content at the
resolved absolute path, leaves every other file unchanged, and returns the
resolved absolute path in its result string. -/
theorem C6_write_file_contract (cwd : List String) (fs : FS) (fn ct : Option String) :
    ((fn = none ∨ fn = some "" ∨ ct = none ∨ ct = some "") →
      write_file_tool cwd fs fn ct = (.ok "Error: Missing filename or content.", fs)) ∧
    (∀ f c p, fn = some f → ct = some c → f ≠ "" → c ≠ "" →
      safe_path cwd f = .ok p →
      write_file_tool cwd fs fn ct =
        (.ok ("Wrote file: " ++ pathToString p),
         ⟨prefixesOf p.dropLast ++ fs.dirs, (p, c) :: fs.files⟩) ∧
      lookupFS ⟨prefixesOf p.dropLast ++ fs.dirs, (p, c) :: fs.files⟩ p = some c ∧
      (∀ q, q ≠ p →
        lookupFS ⟨prefixesOf p.dropLast ++ fs.dirs, (p, c) :: fs.files⟩ q = lookupFS fs q)) := by
  constructor
  · rintro (rfl | rfl | rfl | rfl) <;> simp [write_file_tool, pyFalsy]
  · rintro f c p rfl rfl hf hcne hp
    refine ⟨?_, ?_, fun q hq => ?_⟩
    · simp [write_file_tool, pyFalsy, hf, hcne, hp, mkdirParents]
    · simp [lookupFS, List.find?]
    · simp [lookupFS, List.find?, Ne.symm hq]

/-- C6, witness: the missing-argument branch and the success branch at
concrete inputs. -/
theorem C6_write_file_contract_witness :
    write_file_tool [] ⟨[], []⟩ none (some "x") =
      (.ok "Error: Missing filename or content.", (⟨[], []⟩ : FS)) ∧
    write_file_tool [] ⟨[], []⟩ (some "a/b.txt") (some "hi") =
      (.ok "Wrote file: /workspace/a/b.txt",
       ⟨[[], ["workspace"], ["workspace", "a"]], [(["workspace", "a", "b.txt"], "hi")]⟩) :=
  ⟨(C6_write_file_contract [] ⟨[], []⟩ none (some "x")).1 (Or.inl rfl),
   ((C6_write_file_contract [] ⟨[], []⟩ (some "a/b.txt") (some "hi")).2
      "a/b.txt" "hi" ["workspace", "a", "b.txt"] rfl rfl (by decide) (by decide)
      (by decide)).1⟩

/-! ## C4 — `safe_path` confines every returned path to the sandbox -/

theorem resolve_append (l1 l2 : List String) (acc : List String) :
    resolveComponents acc (l1 ++ l2) =
      resolveComponents (resolveComponents acc l1) l2 := by
  induction l1 generalizing acc with
  | nil => rfl
  | cons c cs ih =>
    simp only [List.cons_append, resolveComponents]
    split
    · exact ih _
    · split
      · exact ih _
      · exact ih _

theorem resolve_cons_plain (c : String) (h1 : c ≠ ".") (h2 : c ≠ "..")
    (acc l : List String) :
    resolveComponents acc (c :: l) = resolveComponents (acc ++ [c]) l := by
  simp [resolveComponents, h1, h2]

theorem resolve_up (acc : List String) (l : List String) :
    resolveComponents acc (".." :: l) = resolveComponents acc.dropLast l := by
  simp [resolveComponents]

theorem resolve_root (cwd : List String) :
    resolveComponents [] (cwd ++ ["workspace"]) =
      resolveComponents [] cwd ++ ["workspace"] := by
  rw [resolve_append, resolve_cons_plain "workspace" (by decide) (by decide)]
  rfl

/-- The sandbox root `cwd/workspace` is never a componentwise prefix of
`cwd/../etc/passwd` (the resolution of the traversal input), whatever the
working directory is. -/
theorem notPre_passwd (r : List String) :
    isPre (r ++ ["workspace"]) (r.dropLast ++ ["etc", "passwd"]) = false := by
  induction r with
  | nil => decide
  | cons a as ih =>
    cases as with
    | nil =>
      simp only [List.cons_append, List.nil_append, List.dropLast_single,
        isPre, Bool.and_eq_false_iff]
      right
      rw [show (decide ("workspace" = "passwd")) = false from by decide]
      simp [isPre]
    | cons b bs =>
      show isPre (a :: ((b :: bs) ++ ["workspace"]))
          (a :: ((b :: bs).dropLast ++ ["etc", "passwd"])) = false
      simp only [isPre, Bool.and_eq_false_iff]
      right
      exact ih

/-- C4: under every working directory (hence every SandboxRoot
`cwd/workspace`), the traversal input `"../../etc/passwd"` makes `safe_path`
raise the path-escape error; `"sub/dir/file.txt"` resolves to an absolute
path strictly below SandboxRoot; and in general every path `safe_path`
returns has SandboxRoot as a componentwise prefix (is a descendant of, or
equal to, SandboxRoot). -/
theorem C4_safe_path_sandbox (cwd : List String) :
    safe_path cwd "../../etc/passwd" = .error "Unsafe path." ∧
    (∃ p, safe_path cwd "sub/dir/file.txt" = .ok p ∧
      isPre (resolveComponents [] (cwd ++ ["workspace"])) p = true ∧
      p ≠ resolveComponents [] (cwd ++ ["workspace"])) ∧
    (∀ rel p, safe_path cwd rel = .ok p →
      isPre (resolveComponents [] (cwd ++ ["workspace"])) p = true) := by
  refine ⟨?_, ?_, fun rel p h => ?_⟩
  · have habs : pyIsAbs "../../etc/passwd" = false := by decide
    have hsplit : splitSlash ("../../etc/passwd").data = ["..", "..", "etc", "passwd"] := by
      decide
    have hp : resolveComponents []
        (cwd ++ "workspace" :: splitSlash ("../../etc/passwd").data) =
        (resolveComponents [] cwd).dropLast ++ ["etc", "passwd"] := by
      rw [hsplit,
        show cwd ++ ["workspace", "..", "..", "etc", "passwd"] =
          cwd ++ ["workspace"] ++ ["..", "..", "etc", "passwd"] by simp,
        resolve_append, resolve_root, resolve_up,
        show (resolveComponents [] cwd ++ ["workspace"]).dropLast =
          resolveComponents [] cwd from by rw [List.dropLast_concat],
        resolve_up,
        resolve_cons_plain "etc" (by decide) (by decide),
        resolve_cons_plain "passwd" (by decide) (by decide)]
      simp [resolveComponents]
    simp only [safe_path, habs, if_false, Bool.false_eq_true, hp, resolve_root]
    rw [if_neg]
    rw [notPre_passwd]
    simp
  · have habs : pyIsAbs "sub/dir/file.txt" = false := by decide
    have hsplit : splitSlash ("sub/dir/file.txt").data = ["sub", "dir", "file.txt"] := by
      decide
    have hp : resolveComponents []
        (cwd ++ "workspace" :: splitSlash ("sub/dir/file.txt").data) =
        resolveComponents [] cwd ++ ["workspace", "sub", "dir", "file.txt"] := by
      rw [hsplit,
        show cwd ++ ["workspace", "sub", "dir", "file.txt"] =
          cwd ++ ["workspace"] ++ ["sub", "dir", "file.txt"] by simp,
        resolve_append, resolve_root,
        resolve_cons_plain "sub" (by decide) (by decide),
        resolve_cons_plain "dir" (by decide) (by decide),
        resolve_cons_plain "file.txt" (by decide) (by decide)]
      simp [resolveComponents]
    refine ⟨resolveComponents [] cwd ++ ["workspace", "sub", "dir", "file.txt"], ?_, ?_, ?_⟩
    · simp only [safe_path, habs, if_false, Bool.false_eq_true, hp, resolve_root]
      rw [if_pos]
      rw [show resolveComponents [] cwd ++ ["workspace", "sub", "dir", "file.txt"] =
        (resolveComponents [] cwd ++ ["workspace"]) ++ ["sub", "dir", "file.txt"] by simp]
      exact isPre_append_self _ _
    · rw [resolve_root,
        show resolveComponents [] cwd ++ ["workspace", "sub", "dir", "file.txt"] =
          (resolveComponents [] cwd ++ ["workspace"]) ++ ["sub", "dir", "file.txt"] by simp]
      exact isPre_append_self _ _
    · rw [resolve_root]
      intro hcontra
      have := congrArg List.length hcontra
      simp at this
  · simp only [safe_path] at h
    by_cases habs : pyIsAbs rel = true
    · rw [if_pos habs] at h
      by_cases hpre : isPre (resolveComponents [] (cwd ++ ["workspace"]))
          (resolveComponents [] (splitSlash rel.data)) = true
      · rw [if_pos hpre] at h
        injection h with h'
        rw [← h']
        exact hpre
      · rw [if_neg hpre] at h
        cases h
    · rw [if_neg habs] at h
      by_cases hpre : isPre (resolveComponents [] (cwd ++ ["workspace"]))
          (resolveComponents [] (cwd ++ "workspace" :: splitSlash rel.data)) = true
      · rw [if_pos hpre] at h
        injection h with h'
        rw [← h']
        exact hpre
      · rw [if_neg hpre] at h
        cases h

/-- C4, witness: the sandbox-containment conclusion instantiated at a
concrete working directory and relative path. -/
theorem C4_safe_path_sandbox_witness :
    isPre (resolveComponents [] (["home", "user"] ++ ["workspace"]))
      ["home", "user", "workspace", "notes.txt"] = true :=
  (C4_safe_path_sandbox ["home", "user"]).2.2 "notes.txt"
    ["home", "user", "workspace", "notes.txt"] (by decide)

/-! ## C7 — no fencing means an empty artifact, not an error -/

theorem hasFence_cons (c : Char) (l : List Char) :
    hasFence (c :: l) = (startsFence (c :: l) || hasFence l) := rfl

theorem fenceMatchAt_none_of_not_fence (cs : List Char)
    (h : startsFence cs = false) : fenceMatchAt cs = none := by
  simp [fenceMatchAt, h]

theorem reSearchFence_none (cs : List Char) (h : hasFence cs = false) :
    reSearchFence cs = none := by
  induction cs with
  | nil => rfl
  | cons c rest ih =>
    rw [hasFence_cons, Bool.or_eq_false_iff] at h
    have hm : fenceMatchAt (c :: rest) = none :=
      fenceMatchAt_none_of_not_fence _ h.1
    simp [reSearchFence, hm, ih h.2]

/-- C7: for every input text containing no run of three backticks, the
extractor returns the artifact with empty body and absent filename — a
normal return value of the total function, not an error. -/
theorem C7_no_fence_empty_artifact (text : String) (h : hasFence text.data = false) :
    extract_code_block text = { filename := none, code := "" } := by
  simp [extract_code_block, reSearchFence_none _ h]

/-- C7, witness at a concrete fence-free text. -/
theorem C7_no_fence_empty_artifact_witness :
    extract_code_block "Here is a plan, with `one` inline span but no block." =
      { filename := none, code := "" } :=
  C7_no_fence_empty_artifact _ (by decide)

/-! ## C9 — a session without a Developer message degrades gracefully -/

/-- C9: when no transcript message has speaker name `developer`
(case-insensitively, absent names reading as `""`), the extracted artifact is
empty, the archival step reports `"No code found to save."` and writes
nothing into `generated_code/`, the workspace step — preview, approval
prompt, and write — is skipped entirely, the filesystem is untouched, and the
whole post-processing runs to a normal value (no exception). -/
theorem C9_no_developer_graceful (msgs : List Msg) (ts : String)
    (gen : List (String × String)) (cwd : List String) (fs : FS) (approve : Bool)
    (h : ∀ m ∈ msgs, pyLower (m.name.getD "") ≠ "developer") :
    main_post msgs ts gen cwd fs approve =
      ⟨⟨none, ""⟩, "No code found to save.", gen, false, none, fs⟩ := by
  have hd : dev_msgs msgs = [] := by
    rw [dev_msgs]
    rw [List.filter_eq_nil_iff]
    intro m hm
    simp [h m hm]
  have hct : code_text msgs = "" := by
    rw [code_text, hd]
    rfl
  have he : extract_code_block "" = ⟨none, ""⟩ := rfl
  rw [main_post, hct, he]
  simp [save_generated_code]

/-- C9, witness: a concrete transcript with PM and QA speakers only. -/
theorem C9_no_developer_graceful_witness :
    main_post [⟨some "ProductManager", "spec"⟩, ⟨some "QAEngineer", "tests?"⟩,
        ⟨none, "kickoff"⟩] "20250830-083606" [("old.py", "pass")] ["home"]
        ⟨[], []⟩ true =
      ⟨⟨none, ""⟩, "No code found to save.", [("old.py", "pass")], false, none,
        ⟨[], []⟩⟩ :=
  C9_no_developer_graceful _ _ _ _ _ _ (by decide)

/-! ## C8 — idempotence of extraction (lemma stack) -/

theorem startsFence_iff (l : List Char) :
    startsFence l = true ↔ ∃ t, l = '`' :: '`' :: '`' :: t := by
  constructor
  · intro h
    match l with
    | [] => simp [startsFence] at h
    | [a] => simp [startsFence] at h
    | [a, b] => simp [startsFence] at h
    | a :: b :: c :: t =>
      simp only [startsFence, List.take, decide_eq_true_eq, List.cons.injEq,
        and_true] at h
      exact ⟨t, by rw [h.1, h.2.1, h.2.2]⟩
  · rintro ⟨t, rfl⟩
    rfl

theorem hasFence_iff (l : List Char) :
    hasFence l = true ↔ ∃ p s, l = p ++ '`' :: '`' :: '`' :: s := by
  constructor
  · intro h
    induction l with
    | nil => simp [hasFence] at h
    | cons c rest ih =>
      rw [hasFence_cons, Bool.or_eq_true] at h
      rcases h with h | h
      · obtain ⟨t, ht⟩ := (startsFence_iff _).mp h
        exact ⟨[], t, ht⟩
      · obtain ⟨p, s, hp⟩ := ih h
        exact ⟨c :: p, s, by rw [hp]; rfl⟩
  · rintro ⟨p, s, rfl⟩
    induction p with
    | nil =>
      rw [List.nil_append, hasFence_cons, (startsFence_iff _).mpr ⟨s, rfl⟩]
      rfl
    | cons a p' ih =>
      rw [List.cons_append, hasFence_cons, ih, Bool.or_true]

theorem noFence_mono (u l v : List Char)
    (h : hasFence (u ++ (l ++ v)) = false) : hasFence l = false := by
  rw [← Bool.not_eq_true] at h ⊢
  intro hl
  apply h
  obtain ⟨p, s, rfl⟩ := (hasFence_iff l).mp hl
  exact (hasFence_iff _).mpr ⟨u ++ p, s ++ v, by simp⟩

theorem lastCharNot_cons (x c : Char) (rest : List Char) (h : rest ≠ []) :
    lastCharNot x (c :: rest) = lastCharNot x rest := by
  simp [lastCharNot, h]

theorem lastCharNot_append (x : Char) (A B : List Char) (h : B ≠ []) :
    lastCharNot x (A ++ B) = lastCharNot x B := by
  induction A with
  | nil => rfl
  | cons a A' ih =>
    rw [List.cons_append, lastCharNot_cons x a (A' ++ B) (by simp [h]), ih]

theorem hasFence_append (A B : List Char) (hA : hasFence A = false)
    (hB : hasFence B = false)
    (h : lastCharNot '`' A = true ∨ B.head? ≠ some '`') :
    hasFence (A ++ B) = false := by
  induction A with
  | nil => simpa using hB
  | cons a A' ih =>
    rw [hasFence_cons, Bool.or_eq_false_iff] at hA
    rw [List.cons_append, hasFence_cons, Bool.or_eq_false_iff]
    constructor
    · rw [← Bool.not_eq_true]
      intro hsf
      obtain ⟨t, ht⟩ := (startsFence_iff _).mp hsf
      rw [List.cons.injEq] at ht
      obtain ⟨ha, ht⟩ := ht
      cases A' with
      | nil =>
        rw [List.nil_append] at ht
        rcases h with h | h
        · simp [lastCharNot, ha] at h
        · exact h (by rw [ht]; rfl)
      | cons b A'' =>
        rw [List.cons_append, List.cons.injEq] at ht
        obtain ⟨hb, ht⟩ := ht
        cases A'' with
        | nil =>
          rw [List.nil_append] at ht
          rcases h with h | h
          · simp [lastCharNot, hb] at h
          · exact h (by rw [ht]; rfl)
        | cons c A3 =>
          rw [List.cons_append, List.cons.injEq] at ht
          have : startsFence (a :: b :: c :: A3) = true :=
            (startsFence_iff _).mpr ⟨A3, by rw [ha, hb, ht.1]⟩
          rw [this] at hA
          exact absurd hA.1 (by simp)
    · cases A' with
      | nil => simpa using hB
      | cons b A'' =>
        apply ih hA.2
        rcases h with h | h
        · exact Or.inl (by rw [← lastCharNot_cons '`' a (b :: A'') (by simp)]; exact h)
        · exact Or.inr h

theorem capture_props (l b : List Char) (h : captureUntilFence l = some b) :
    (∃ t, l = b ++ '`' :: '`' :: '`' :: t) ∧
      hasFence b = false ∧ lastCharNot '`' b = true := by
  induction l generalizing b with
  | nil => simp [captureUntilFence] at h
  | cons c rest ih =>
    rw [captureUntilFence] at h
    by_cases hsf : startsFence (c :: rest) = true
    · rw [if_pos hsf] at h
      obtain ⟨t, ht⟩ := (startsFence_iff _).mp hsf
      cases h
      exact ⟨⟨t, ht⟩, rfl, rfl⟩
    · rw [if_neg hsf, Option.map_eq_some'] at h
      obtain ⟨b', hb', rfl⟩ := h
      obtain ⟨⟨t, ht⟩, hnf, hlast⟩ := ih b' hb'
      refine ⟨⟨t, by rw [ht]; rfl⟩, ?_, ?_⟩
      · rw [hasFence_cons, Bool.or_eq_false_iff]
        refine ⟨?_, hnf⟩
        rw [← Bool.not_eq_true]
        intro hcb
        apply hsf
        obtain ⟨t', ht'⟩ := (startsFence_iff _).mp hcb
        rw [List.cons.injEq] at ht'
        apply (startsFence_iff _).mpr
        cases b' with
        | nil => simp at ht'
        | cons x b'' =>
          rw [List.cons.injEq] at ht'
          cases b'' with
          | nil => simp at ht'
          | cons y b3 =>
            rw [List.cons.injEq] at ht'
            refine ⟨b3 ++ '`' :: '`' :: '`' :: t, ?_⟩
            rw [ht'.1, ht, ht'.2.1, ht'.2.2.1]
            rfl
      · cases b' with
        | nil =>
          show lastCharNot '`' [c] = true
          rw [show lastCharNot '`' [c] = (c != '`') from by simp [lastCharNot]]
          rw [bne_iff_ne]
          intro hc
          apply hsf
          apply (startsFence_iff _).mpr
          rw [List.nil_append] at ht
          exact ⟨'`' :: t, by rw [hc, ht]⟩
        | cons x b'' =>
          rw [lastCharNot_cons '`' c (x :: b'') (by simp)]
          exact hlast

theorem capture_append (l : List Char) (hnf : hasFence l = false)
    (hlast : lastCharNot '`' l = true) (t : List Char) :
    captureUntilFence (l ++ '`' :: '`' :: '`' :: t) = some l := by
  induction l with
  | nil =>
    rw [List.nil_append, captureUntilFence,
      if_pos ((startsFence_iff _).mpr ⟨t, rfl⟩)]
  | cons c l' ih =>
    rw [hasFence_cons, Bool.or_eq_false_iff] at hnf
    rw [List.cons_append, captureUntilFence, if_neg ?hne]
    case hne =>
      intro hsf
      obtain ⟨t', ht'⟩ := (startsFence_iff _).mp hsf
      rw [List.cons.injEq] at ht'
      obtain ⟨hc, ht'⟩ := ht'
      cases l' with
      | nil =>
        simp [lastCharNot, hc] at hlast
      | cons b l'' =>
        rw [List.cons_append, List.cons.injEq] at ht'
        obtain ⟨hb, ht'⟩ := ht'
        cases l'' with
        | nil =>
          rw [lastCharNot_cons '`' c [b] (by simp)] at hlast
          simp [lastCharNot, hb] at hlast
        | cons d l3 =>
          rw [List.cons_append, List.cons.injEq] at ht'
          have : startsFence (c :: b :: d :: l3) = true :=
            (startsFence_iff _).mpr ⟨l3, by rw [hc, hb, ht'.1]⟩
          rw [this] at hnf
          exact absurd hnf.1 (by simp)
    · cases l' with
      | nil =>
        rw [List.nil_append, captureUntilFence,
          if_pos ((startsFence_iff _).mpr ⟨t, rfl⟩)]
        rfl
      | cons b l'' =>
        rw [ih hnf.2 (by rw [← lastCharNot_cons '`' c (b :: l'') (by simp)]; exact hlast)]
        rfl

theorem search_capture (cs b : List Char) (h : reSearchFence cs = some b) :
    ∃ l, captureUntilFence l = some b := by
  induction cs with
  | nil => simp [reSearchFence] at h
  | cons c rest ih =>
    rw [reSearchFence] at h
    by_cases hm : fenceMatchAt (c :: rest) = none
    · rw [if_pos hm] at h
      exact ih h
    · rw [if_neg hm] at h
      rw [fenceMatchAt] at h hm
      by_cases hsf : startsFence (c :: rest) = true
      · rw [if_pos hsf] at h hm
        by_cases hnl : (((c :: rest).drop 3).dropWhile isLangChar).head? = some '\n'
        · rw [if_pos hnl] at h
          exact ⟨_, h⟩
        · rw [if_neg hnl] at hm
          exact absurd rfl hm
      · rw [if_neg hsf] at hm
        exact absurd rfl hm

theorem search_props (cs b : List Char) (h : reSearchFence cs = some b) :
    hasFence b = false ∧ lastCharNot '`' b = true := by
  obtain ⟨l, hl⟩ := search_capture cs b h
  exact (capture_props l b hl).2

theorem fenceMatchAt_nl (R : List Char) :
    fenceMatchAt ('`' :: '`' :: '`' :: '\n' :: R) = captureUntilFence R := by
  rw [fenceMatchAt, if_pos ((startsFence_iff _).mpr ⟨'\n' :: R, rfl⟩)]
  rw [show (('`' :: '`' :: '`' :: '\n' :: R).drop 3) = '\n' :: R from rfl]
  have hlang : ¬ (isLangChar '\n' = true) := by decide
  rw [List.dropWhile_cons, if_neg hlang]
  simp

theorem reSearch_head (c : Char) (rest b : List Char)
    (h : fenceMatchAt (c :: rest) = some b) :
    reSearchFence (c :: rest) = some b := by
  rw [reSearchFence, if_neg (by rw [h]; simp), h]

theorem splitlines_nil_iff (l : List Char) : splitlinesC l = [] ↔ l = [] := by
  constructor
  · intro h
    cases l with
    | nil => rfl
    | cons c rest =>
      rw [splitlinesC] at h
      by_cases hc : c = '\n'
      · rw [if_pos hc] at h
        cases h
      · rw [if_neg hc] at h
        split at h <;> cases h
  · rintro rfl
    rfl

theorem splitlines_append (A B : List Char) (hA : noNl A = true) :
    splitlinesC (A ++ '\n' :: B) = A :: splitlinesC B := by
  induction A with
  | nil =>
    rw [List.nil_append, splitlinesC, if_pos rfl]
  | cons c A' ih =>
    rw [noNl, List.all_cons, Bool.and_eq_true] at hA
    have hc : c ≠ '\n' := by simpa using hA.1
    rw [List.cons_append, splitlinesC, if_neg hc, ih (by exact hA.2)]

theorem splitlines_noNl (l : List Char) :
    ∀ line ∈ splitlinesC l, noNl line = true := by
  induction l with
  | nil => intro line h; cases h
  | cons c rest ih =>
    intro line hline
    rw [splitlinesC] at hline
    by_cases hc : c = '\n'
    · rw [if_pos hc] at hline
      rcases List.mem_cons.mp hline with rfl | h
      · rfl
      · exact ih line h
    · rw [if_neg hc] at hline
      rcases hsp : splitlinesC rest with _ | ⟨x, xs⟩
      · rw [hsp] at hline
        rcases List.mem_cons.mp hline with rfl | h
        · simp [noNl, hc]
        · cases h
      · rw [hsp] at hline
        rcases List.mem_cons.mp hline with rfl | h
        · have hx : noNl x = true := ih x (by rw [hsp]; exact List.mem_cons_self x xs)
          simp only [noNl, List.all_cons, Bool.and_eq_true]
          exact ⟨by simpa using hc, hx⟩
        · exact ih line (by rw [hsp]; exact List.mem_cons_of_mem x h)

theorem joinNl_cons (a : List Char) (L : List (List Char)) :
    joinNlC (a :: L) = if L = [] then a else a ++ '\n' :: joinNlC L := rfl

theorem join_splitlines (l : List Char) :
    joinNlC (splitlinesC l) = stripNl1 l := by
  induction l with
  | nil => rfl
  | cons c rest ih =>
    by_cases hc : c = '\n'
    · subst hc
      by_cases hrest : rest = []
      · subst hrest
        rfl
      · have h2 : splitlinesC rest ≠ [] := by
          rw [ne_eq, splitlines_nil_iff]
          exact hrest
        rw [show splitlinesC ('\n' :: rest) = [] :: splitlinesC rest from by
          rw [splitlinesC, if_pos rfl]]
        rw [joinNl_cons, if_neg h2, List.nil_append, ih, stripNl1, if_neg hrest]
    · by_cases hrest : rest = []
      · subst hrest
        rw [show splitlinesC [c] = [[c]] from by rw [splitlinesC, if_neg hc]; rfl]
        rw [joinNl_cons, if_pos rfl, stripNl1, if_pos rfl, if_neg hc]
      · have h2 : splitlinesC rest ≠ [] := by
          rw [ne_eq, splitlines_nil_iff]
          exact hrest
        rcases hsp : splitlinesC rest with _ | ⟨x, xs⟩
        · exact absurd hsp h2
        · have h1 : splitlinesC (c :: rest) = (c :: x) :: xs := by
            rw [splitlinesC, if_neg hc, hsp]
          rw [h1, stripNl1, if_neg hrest]
          rw [hsp] at ih
          rcases xs with _ | ⟨y, ys⟩
          · rw [joinNl_cons, if_pos rfl]
            rw [joinNl_cons, if_pos rfl] at ih
            rw [ih]
          · rw [joinNl_cons, if_neg (by simp)]
            rw [joinNl_cons, if_neg (by simp)] at ih
            rw [List.cons_append, ih]
theorem stripNl1_decomp (l : List Char) :
    l = stripNl1 l ∨ l = stripNl1 l ++ ['\n'] := by
  induction l with
  | nil => exact Or.inl rfl
  | cons c r ih =>
    rw [stripNl1]
    by_cases hr : r = []
    · subst hr
      by_cases hc : c = '\n'
      · subst hc
        right
        rw [if_pos rfl, if_pos rfl]
        rfl
      · left
        rw [if_pos rfl, if_neg hc]
    · rw [if_neg hr]
      rcases ih with ih | ih
      · exact Or.inl (by rw [← ih])
      · right
        rw [List.cons_append, ← ih]

theorem stripNl1_eq_self (l : List Char) (h : lastCharNot '\n' l = true) :
    stripNl1 l = l := by
  induction l with
  | nil => rfl
  | cons c r ih =>
    rw [stripNl1]
    by_cases hr : r = []
    · subst hr
      rw [lastCharNot, if_pos rfl] at h
      rw [if_pos rfl, if_neg (by simpa using h)]
    · rw [if_neg hr, ih (by rw [← lastCharNot_cons '\n' c r hr]; exact h)]

theorem dropWhile_head_false (p : Char → Bool) (l : List Char) (c : Char)
    (r : List Char) (h : List.dropWhile p l = c :: r) : p c = false := by
  induction l with
  | nil => cases h
  | cons a l' ih =>
    rw [List.dropWhile_cons] at h
    by_cases hp : p a = true
    · rw [if_pos hp] at h
      exact ih h
    · rw [if_neg hp] at h
      rw [List.cons.injEq] at h
      rw [← h.1]
      simpa using hp

theorem dtw_decomp (l : List Char) : ∃ v, l = dropTrailingWs l ++ v := by
  induction l with
  | nil => exact ⟨[], rfl⟩
  | cons c rest ih =>
    obtain ⟨v, hv⟩ := ih
    rw [dropTrailingWs]
    by_cases h0 : dropTrailingWs rest = []
    · rw [if_pos h0]
      by_cases hws : isWs c = true
      · rw [if_pos hws]
        exact ⟨c :: rest, rfl⟩
      · rw [if_neg hws]
        exact ⟨rest, rfl⟩
    · rw [if_neg h0]
      exact ⟨v, by rw [List.cons_append, ← hv]⟩

theorem dtw_idem (l : List Char) :
    dropTrailingWs (dropTrailingWs l) = dropTrailingWs l := by
  induction l with
  | nil => rfl
  | cons c rest ih =>
    rw [dropTrailingWs]
    by_cases h0 : dropTrailingWs rest = []
    · rw [if_pos h0]
      by_cases hws : isWs c = true
      · rw [if_pos hws]
        rfl
      · rw [if_neg hws]
        simp [dropTrailingWs, hws]
    · rw [if_neg h0]
      rw [dropTrailingWs, ih, if_neg h0]

theorem dtw_append (A f : List Char) (h : dropTrailingWs f ≠ []) :
    dropTrailingWs (A ++ f) = A ++ dropTrailingWs f := by
  induction A with
  | nil => rfl
  | cons a A' ih =>
    rw [List.cons_append, dropTrailingWs, ih, if_neg (by simp [h])]
    rfl

theorem dw_trim_fix (l : List Char) :
    List.dropWhile isWs (trimC l) = trimC l := by
  rcases htr : trimC l with _ | ⟨c, r⟩
  · rfl
  · rw [trimC] at htr
    obtain ⟨v, hv⟩ := dtw_decomp (List.dropWhile isWs l)
    rw [htr] at hv
    have hc : isWs c = false := dropWhile_head_false isWs l c (r ++ v) (by rw [hv]; rfl)
    rw [List.dropWhile_cons, if_neg (by simp [hc])]

theorem trim_idem (l : List Char) : trimC (trimC l) = trimC l := by
  rw [show trimC (trimC l) = dropTrailingWs (List.dropWhile isWs (trimC l)) from rfl]
  rw [dw_trim_fix, trimC, dtw_idem]

theorem trim_cons_ws (c : Char) (l : List Char) (h : isWs c = true) :
    trimC (c :: l) = trimC l := by
  rw [trimC, trimC, List.dropWhile_cons, if_pos h]

theorem trim_decomp (l : List Char) : ∃ u v, l = u ++ trimC l ++ v := by
  obtain ⟨v, hv⟩ := dtw_decomp (List.dropWhile isWs l)
  exact ⟨List.takeWhile isWs l, v, by
    rw [trimC, List.append_assoc, ← hv, List.takeWhile_append_dropWhile]⟩

theorem dtw_of_trimmed (f : List Char) (hf : trimC f = f) :
    dropTrailingWs f = f := by
  conv_lhs => rw [← hf]
  rw [trimC, dtw_idem, ← trimC, hf]

theorem trim_hash_append (f : List Char) (hf : trimC f = f) (hne : f ≠ []) :
    trimC ("# file: ".data ++ f) = "# file: ".data ++ f := by
  have hdtw : dropTrailingWs f = f := dtw_of_trimmed f hf
  have hA : "# file: ".data = '#' :: " file: ".data := by decide
  have h9 : ¬ (isWs '#' = true) := by decide
  rw [trimC, hA, List.cons_append, List.dropWhile_cons, if_neg h9,
    ← List.cons_append, ← hA, dtw_append _ _ (by rw [hdtw]; exact hne), hdtw]

theorem afterColon_suffix (l : List Char) : ∃ u, l = u ++ afterColon l := by
  induction l with
  | nil => exact ⟨[], rfl⟩
  | cons c r ih =>
    rw [afterColon]
    by_cases hc : c = ':'
    · rw [if_pos hc]
      exact ⟨[c], rfl⟩
    · rw [if_neg hc]
      obtain ⟨u, hu⟩ := ih
      exact ⟨c :: u, by rw [List.cons_append, ← hu]⟩

theorem afterColon_hash (f : List Char) :
    afterColon ("# file: ".data ++ f) = ' ' :: f := by
  rw [show "# file: ".data = ['#', ' ', 'f', 'i', 'l', 'e', ':', ' '] from by decide]
  simp [afterColon]

theorem toLower_append (A B : List Char) :
    toLowerC (A ++ B) = toLowerC A ++ toLowerC B := by
  simp [toLowerC]

theorem isPre_file_marker (x : List Char) :
    isPre "# file:".data ("# file: ".data ++ x) = true := by
  rw [show "# file: ".data = "# file:".data ++ [' '] from by decide, List.append_assoc]
  exact isPre_append_self _ _

theorem noNl_mid (u m v : List Char) (h : noNl (u ++ (m ++ v)) = true) :
    noNl m = true := by
  simp only [noNl, List.all_append, Bool.and_eq_true] at h
  exact h.2.1

theorem data_mk (l : List Char) : (String.mk l).data = l := rfl

theorem noFence_app_left (A B : List Char) (h : hasFence (A ++ B) = false) :
    hasFence A = false :=
  noFence_mono [] A B (by rw [List.nil_append]; exact h)

theorem noFence_app_right (A B : List Char) (h : hasFence (A ++ B) = false) :
    hasFence B = false :=
  noFence_mono A B [] (by rw [List.append_nil]; exact h)

theorem noNl_append_elim (A B : List Char) (h : noNl (A ++ B) = true) :
    noNl A = true ∧ noNl B = true := by
  rw [noNl, List.all_append, Bool.and_eq_true] at h
  exact ⟨h.1, h.2⟩

theorem search_wrap (X : List Char) (hnf : hasFence X = false)
    (hlast : lastCharNot '`' X = true) :
    reSearchFence ('`' :: '`' :: '`' :: '\n' :: (X ++ ['`', '`', '`'])) = some X := by
  apply reSearch_head
  rw [fenceMatchAt_nl]
  exact capture_append X hnf hlast []

theorem reconstruct_none_eval (code : List Char) (hnf : hasFence code = false)
    (hlast : lastCharNot '`' code = true) :
    extract_code_block (reconstruct ⟨none, String.mk code⟩) = mkArtifact code := by
  have hdata : (reconstruct ⟨none, String.mk code⟩).data =
      '`' :: '`' :: '`' :: '\n' :: (code ++ ['`', '`', '`']) := by
    show ("```\n" ++ String.mk code ++ "```").data = _
    simp only [String.data_append, data_mk]
    simp [List.append_assoc]
  simp only [extract_code_block]
  rw [hdata, search_wrap _ hnf hlast]

theorem reconstruct_some_eval (f code : List Char)
    (hnf : hasFence (("# file: ".data ++ f) ++ '\n' :: code) = false)
    (hlast : lastCharNot '`' (("# file: ".data ++ f) ++ '\n' :: code) = true) :
    extract_code_block (reconstruct ⟨some (String.mk f), String.mk code⟩) =
      mkArtifact (("# file: ".data ++ f) ++ '\n' :: code) := by
  have hdata : (reconstruct ⟨some (String.mk f), String.mk code⟩).data =
      '`' :: '`' :: '`' :: '\n' ::
        ((("# file: ".data ++ f) ++ '\n' :: code) ++ ['`', '`', '`']) := by
    show ("```\n" ++ "# file: " ++ String.mk f ++ "\n" ++ String.mk code ++ "```").data = _
    simp only [String.data_append, data_mk]
    simp [List.append_assoc]
  simp only [extract_code_block]
  rw [hdata, search_wrap _ hnf hlast]

theorem mkArtifact_line (f code : List Char) (hf : trimC f = f)
    (hnlf : noNl f = true) (hcodenl : lastCharNot '\n' code = true) :
    mkArtifact (("# file: ".data ++ f) ++ '\n' :: code) =
      ⟨some (String.mk f), String.mk code⟩ := by
  have hlinenl : noNl ("# file: ".data ++ f) = true := by
    rw [noNl, List.all_append, Bool.and_eq_true]
    exact ⟨by decide, hnlf⟩
  have hsp := splitlines_append ("# file: ".data ++ f) code hlinenl
  have hjoin : joinNlC (splitlinesC code) = code := by
    rw [join_splitlines, stripNl1_eq_self code hcodenl]
  by_cases hfe : f = []
  · subst hfe
    have htr : trimC ("# file: ".data ++ []) = "# file:".data := by
      rw [List.append_nil]
      decide
    have hc0 : isPre "# file:".data (toLowerC "# file:".data) = true := by decide
    simp only [mkArtifact]
    rw [hsp]
    simp only [List.headD_cons, List.tail_cons]
    rw [htr, if_pos hc0, hjoin]
    rw [show trimC (afterColon "# file:".data) = [] from by decide]
  · have htr := trim_hash_append f hf hfe
    have hpos : isPre "# file:".data (toLowerC ("# file: ".data ++ f)) = true := by
      rw [toLower_append, show toLowerC "# file: ".data = "# file: ".data from by decide]
      exact isPre_file_marker _
    simp only [mkArtifact]
    rw [hsp]
    simp only [List.headD_cons, List.tail_cons]
    rw [htr, if_pos hpos, afterColon_hash, trim_cons_ws ' ' f (by decide), hf, hjoin]

/-- C8, counterexample: re-extraction of the reconstructed fenced text is not
always the identity on non-empty artifacts.  For `"```\n# file: f\na\n\n```"`
the extracted body is `"a\n"`, and re-extracting its reconstruction loses the
trailing newline; for `"```\n# file: f\nb`\n```"` the extracted body is
`"b`"`, and in the reconstruction the trailing backtick merges with the
closing fence so re-extraction loses it. -/
theorem C8_reextraction_differs :
    extract_code_block "```\n# file: f\na\n\n```" =
      { filename := some "f", code := "a\n" } ∧
    extract_code_block (reconstruct { filename := some "f", code := "a\n" }) =
      { filename := some "f", code := "a" } ∧
    extract_code_block "```\n# file: f\nb`\n```" =
      { filename := some "f", code := "b`" } ∧
    extract_code_block (reconstruct { filename := some "f", code := "b`" }) =
      { filename := some "f", code := "b" } := by
  refine ⟨by decide, by decide, by decide, by decide⟩

/-- C8, amended: extraction is idempotent on every non-empty artifact whose
body, when a filename was extracted, ends in neither a newline nor a backtick
(with no filename, re-extraction of the reconstruction is always the
identity): re-extracting the reconstructed fenced text — the `# file: <name>`
line re-inserted when a filename was extracted, followed by the body, wrapped
in triple-backtick fences — yields the same filename and the same body. -/
theorem C8_extract_idempotent_amended (text : String) (a : Artifact)
    (hx : extract_code_block text = a) (hne : a.code ≠ "")
    (hcond : a.filename.isSome = true →
      lastCharNot '\n' a.code.data = true ∧ lastCharNot '`' a.code.data = true) :
    extract_code_block (reconstruct a) = a := by
  simp only [extract_code_block] at hx
  rcases hs : reSearchFence text.data with _ | capture
  · rw [hs] at hx
    exact absurd (show a.code = "" from by rw [← hx]) hne
  · rw [hs] at hx
    have hx' : mkArtifact capture = a := hx
    obtain ⟨hnf, hlast⟩ := search_props _ _ hs
    by_cases hfl : isPre "# file:".data
        (toLowerC (trimC ((splitlinesC capture).headD []))) = true
    · rcases hL : splitlinesC capture with _ | ⟨l0, rest⟩
      · exfalso
        apply hne
        rw [← hx']
        rw [show capture = [] from (splitlines_nil_iff capture).mp hL]
        decide
      · rw [hL] at hfl
        simp only [List.headD_cons] at hfl
        have ha : a = ⟨some (String.mk (trimC (afterColon (trimC l0)))),
            String.mk (joinNlC rest)⟩ := by
          rw [← hx']
          simp only [mkArtifact]
          rw [hL]
          simp only [List.headD_cons, List.tail_cons]
          rw [if_pos hfl]
        obtain ⟨haNl, haTick⟩ := hcond (by rw [ha]; rfl)
        have hNl : lastCharNot '\n' (joinNlC rest) = true := by
          rw [ha] at haNl
          exact haNl
        have hTick : lastCharNot '`' (joinNlC rest) = true := by
          rw [ha] at haTick
          exact haTick
        have hcode_ne : joinNlC rest ≠ [] := by
          intro h0
          apply hne
          rw [ha]
          show String.mk (joinNlC rest) = ""
          rw [h0]
        have hrest_ne : rest ≠ [] := by
          intro h0
          apply hcode_ne
          rw [h0]
          rfl
        have hstrip : stripNl1 capture = l0 ++ '\n' :: joinNlC rest := by
          rw [← join_splitlines, hL, joinNl_cons, if_neg hrest_ne]
        have hkey : hasFence ('\n' :: joinNlC rest) = false ∧ hasFence l0 = false := by
          rcases stripNl1_decomp capture with hC | hC <;> rw [hstrip] at hC
          · refine ⟨noFence_mono l0 ('\n' :: joinNlC rest) [] ?_,
              noFence_mono [] l0 ('\n' :: joinNlC rest) ?_⟩
            · rw [List.append_nil, ← hC]
              exact hnf
            · rw [List.nil_append, ← hC]
              exact hnf
          · refine ⟨noFence_mono l0 ('\n' :: joinNlC rest) ['\n'] ?_,
              noFence_mono [] l0 (('\n' :: joinNlC rest) ++ ['\n']) ?_⟩
            · rw [← List.append_assoc, ← hC]
              exact hnf
            · rw [List.nil_append, ← List.append_assoc, ← hC]
              exact hnf
        have hl0nl : noNl l0 = true :=
          splitlines_noNl capture l0 (by rw [hL]; exact List.mem_cons_self _ _)
        have htrimnl : noNl (trimC l0) = true := by
          obtain ⟨u, v, huv⟩ := trim_decomp l0
          rw [huv] at hl0nl
          exact (noNl_append_elim _ _ (noNl_append_elim _ _ hl0nl).1).2
        have hacnl : noNl (afterColon (trimC l0)) = true := by
          obtain ⟨u, hu⟩ := afterColon_suffix (trimC l0)
          rw [hu] at htrimnl
          exact (noNl_append_elim _ _ htrimnl).2
        have hfnl : noNl (trimC (afterColon (trimC l0))) = true := by
          obtain ⟨u, v, huv⟩ := trim_decomp (afterColon (trimC l0))
          rw [huv] at hacnl
          exact (noNl_append_elim _ _ (noNl_append_elim _ _ hacnl).1).2
        have htrimnf : hasFence (trimC l0) = false := by
          obtain ⟨u, v, huv⟩ := trim_decomp l0
          rw [huv] at hkey
          exact noFence_app_right _ _ (noFence_app_left _ _ hkey.2)
        have hacnf : hasFence (afterColon (trimC l0)) = false := by
          obtain ⟨u, hu⟩ := afterColon_suffix (trimC l0)
          rw [hu] at htrimnf
          exact noFence_app_right _ _ htrimnf
        have hfnf : hasFence (trimC (afterColon (trimC l0))) = false := by
          obtain ⟨u, v, huv⟩ := trim_decomp (afterColon (trimC l0))
          rw [huv] at hacnf
          exact noFence_app_right _ _ (noFence_app_left _ _ hacnf)
        have hX_nf : hasFence (("# file: ".data ++ trimC (afterColon (trimC l0))) ++
            '\n' :: joinNlC rest) = false := by
          apply hasFence_append
          · exact hasFence_append _ _ (by decide) hfnf (Or.inl (by decide))
          · exact hkey.1
          · exact Or.inr (fun hcontra => absurd (Option.some.inj hcontra) (by decide))
        have hX_last : lastCharNot '`' (("# file: ".data ++ trimC (afterColon (trimC l0))) ++
            '\n' :: joinNlC rest) = true := by
          rw [lastCharNot_append '`' _ _ (by simp),
            lastCharNot_cons '`' '\n' _ hcode_ne]
          exact hTick
        rw [ha, reconstruct_some_eval _ _ hX_nf hX_last]
        exact mkArtifact_line _ _ (trim_idem _) hfnl hNl
    · have ha : a = ⟨none, String.mk capture⟩ := by
        rw [← hx']
        simp only [mkArtifact]
        rw [if_neg hfl]
      rw [ha, reconstruct_none_eval capture hnf hlast, hx', ha]

/-- C8, witness: the amended idempotence at a concrete extraction. -/
theorem C8_extract_idempotent_amended_witness :
    extract_code_block
        (reconstruct { filename := some "app.py", code := "print(1)" }) =
      { filename := some "app.py", code := "print(1)" } :=
  C8_extract_idempotent_amended "```\n# file: app.py\nprint(1)\n```"
    { filename := some "app.py", code := "print(1)" } (by decide) (by decide)
    (fun _ => by refine ⟨by decide, by decide⟩)
